import Mathlib

set_option maxHeartbeats 1000000

/-
Verification of the GPU matrix engine of cuda-gpt-2 (src/gpu/cuda_utils.cu).
Machine float32 values are modelled as exact rationals; device buffers are
lists of rationals; a kernel launch is embedded as a pure function from the
prior contents of the written buffer to its new contents.
-/

namespace CudaUtils

/-- Dense row-major matrix, embedding the C struct Matrix
(float pointer dat; int rows, cols) at value level: dat is the buffer
contents. -/
structure Matrix where
  dat : List ℚ
  rows : ℕ
  cols : ℕ
deriving DecidableEq

/-- Buffer of length n whose entry at index i is f i. Used to embed a
kernel grid that visits every index of an output buffer. -/
def buildList (n : ℕ) (f : ℕ → ℚ) : List ℚ :=
  (List.range n).map f

theorem length_buildList (n : ℕ) (f : ℕ → ℚ) : (buildList n f).length = n := by
  simp [buildList]

theorem getD_buildList (n : ℕ) (f : ℕ → ℚ) (j : ℕ) (h : j < n) :
    (buildList n f).getD j 0 = f j := by
  simp [buildList, List.getD, List.getElem?_map, List.getElem?_range h]

theorem getD_buildList_of_le (n : ℕ) (f : ℕ → ℚ) (j : ℕ) (h : n ≤ j) :
    (buildList n f).getD j 0 = 0 := by
  apply List.getD_eq_default
  simpa [length_buildList] using h

theorem buildList_congr {n : ℕ} {f g : ℕ → ℚ} (h : ∀ i < n, f i = g i) :
    buildList n f = buildList n g := by
  unfold buildList
  apply List.map_congr_left
  intro i hi
  exact h i (List.mem_range.mp hi)

/-!
weightedSampleKernel (src/gpu/cuda_utils.cu lines 297-309): single-thread
inverse-CDF scan. The C loop keeps a running sum and a cursor tmp; it adds
probs[tmp], breaks returning tmp as soon as sum >= rand_val, and when the
loop condition tmp < length fails it falls through returning tmp, which at
that point equals length. The embedding recurses over the remaining
prefix of the probability row, carrying sum and tmp exactly as the loop
does. -/
def wsGo (r : ℚ) (sum : ℚ) (tmp : ℕ) : List ℚ → ℕ
  | [] => tmp
  | p :: rest => if r ≤ sum + p then tmp else wsGo r (sum + p) (tmp + 1) rest

/-- Embedding of weightedSampleKernel: scan the probability row with
accumulator 0 and cursor 0. -/
def weightedSampleKernel (probs : List ℚ) (r : ℚ) : ℕ :=
  wsGo r 0 0 probs

/-- Cumulative sum of the first k probabilities, the value the running sum
holds after the scan has consumed k entries. -/
def prefSum (probs : List ℚ) (k : ℕ) : ℚ :=
  ((probs.take k).sum)

/-- C1: evaluating the sampler scan at a failing input. The row
[1/4, 1/4] has width 2 and cumulative total 1/2; with the draw r = 3/4 the
scan exhausts the row without the running sum ever reaching r, and the code
returns the cursor value 2 = width, an index outside [0, 2), instead of the
last index 1 that the specification prescribes. -/
theorem weightedSample_exhaust_out_of_range :
    weightedSampleKernel [(1 : ℚ)/4, 1/4] (3/4) = 2 ∧ ¬ (2 < 2) := by
  constructor
  · norm_num [weightedSampleKernel, wsGo]
  · decide

/-!
BINARY macro family (src/gpu/cuda_utils.cu lines 378-405): each kernel
writes a[i] = a[i] opr b[i] at every linear index i = row*aCols+col with
row < aRows and col < aCols. The opr text may also mention the buffer b
and the index i directly, as the tile variants do, so the generic
element operation receives the second buffer, aCols, i, a[i] and b[i]. -/
def binaryKernelRun (op : List ℚ → ℕ → ℕ → ℚ → ℚ → ℚ)
    (a b : List ℚ) (aRows aCols : ℕ) : List ℚ :=
  buildList a.length (fun i =>
    if i < aRows * aCols then op b aCols i (a.getD i 0) (b.getD i 0)
    else a.getD i 0)

/-- Element operation of add_tile: a[i] + b[i % aCols]; the actual b[i]
operand is dropped by the semicolon trick in the source macro. -/
def add_tileOp : List ℚ → ℕ → ℕ → ℚ → ℚ → ℚ :=
  fun b aCols i x _ => x + b.getD (i % aCols) 0

/-- Element operation of multiply_tile: a[i] * b[i % aCols]. -/
def multiply_tileOp : List ℚ → ℕ → ℕ → ℚ → ℚ → ℚ :=
  fun b aCols i x _ => x * b.getD (i % aCols) 0

/-- Embedding of add_tileCUDA: in-place update of the first operand. -/
def add_tileCUDA (a b : Matrix) : Matrix :=
  ⟨binaryKernelRun add_tileOp a.dat b.dat a.rows a.cols, a.rows, a.cols⟩

/-- Embedding of multiply_tileCUDA. -/
def multiply_tileCUDA (a b : Matrix) : Matrix :=
  ⟨binaryKernelRun multiply_tileOp a.dat b.dat a.rows a.cols, a.rows, a.cols⟩

/-- C2 fails on the code: with A the 2x2 zero matrix and B = [[1,2],[3,4]],
add_tile produces [[1,2],[1,2]] — entry (1,1) becomes 2, not
A[1][1] + B[1][0] = 3 — and changing the entry B[0][1], which is not in
column 0 of B, from 2 to 9 changes the result. -/
theorem add_tile_counterexample :
    (add_tileCUDA ⟨[0, 0, 0, 0], 2, 2⟩ ⟨[1, 2, 3, 4], 2, 2⟩).dat = [1, 2, 1, 2] ∧
    ¬ ((1 : ℚ), 2, 1, 2) = (1, 1, 3, 3) ∧
    (add_tileCUDA ⟨[0, 0, 0, 0], 2, 2⟩ ⟨[1, 9, 3, 4], 2, 2⟩).dat = [1, 9, 1, 9] ∧
    ¬ ([1, 2, 1, 2] : List ℚ) = [1, 9, 1, 9] := by
  refine ⟨?_, by norm_num, ?_, by norm_num⟩ <;>
    norm_num [add_tileCUDA, binaryKernelRun, buildList, add_tileOp, List.range_succ]

/-- C2 amended: add_tile and multiply_tile combine A[r][c] with the entry of
the second operand buffer at flat index c = i mod aCols, so the result
depends only on the first aCols entries of that buffer; when the second
operand is stored as a column vector those entries are its column 0. -/
theorem tile_ops_use_flat_column_index (a b : Matrix) (r c : ℕ)
    (hr : r < a.rows) (hc : c < a.cols) (hlen : a.rows * a.cols ≤ a.dat.length) :
    (add_tileCUDA a b).dat.getD (r * a.cols + c) 0
      = a.dat.getD (r * a.cols + c) 0 + b.dat.getD c 0 ∧
    (multiply_tileCUDA a b).dat.getD (r * a.cols + c) 0
      = a.dat.getD (r * a.cols + c) 0 * b.dat.getD c 0 ∧
    (∀ b' : Matrix, (∀ j < a.cols, b'.dat.getD j 0 = b.dat.getD j 0) →
      (add_tileCUDA a b').dat = (add_tileCUDA a b).dat ∧
      (multiply_tileCUDA a b').dat = (multiply_tileCUDA a b).dat) := by
  have hidx : r * a.cols + c < a.rows * a.cols := by
    calc r * a.cols + c < r * a.cols + a.cols := by omega
    _ = (r + 1) * a.cols := by ring
    _ ≤ a.rows * a.cols := Nat.mul_le_mul_right _ (by omega)
  have hlt : r * a.cols + c < a.dat.length := lt_of_lt_of_le hidx hlen
  have hmod : (r * a.cols + c) % a.cols = c := by
    rw [Nat.add_comm, Nat.add_mul_mod_self_right]
    exact Nat.mod_eq_of_lt hc
  refine ⟨?_, ?_, ?_⟩
  · show (binaryKernelRun add_tileOp a.dat b.dat a.rows a.cols).getD _ 0 = _
    rw [binaryKernelRun, getD_buildList _ _ _ hlt, if_pos hidx, add_tileOp, hmod]
  · show (binaryKernelRun multiply_tileOp a.dat b.dat a.rows a.cols).getD _ 0 = _
    rw [binaryKernelRun, getD_buildList _ _ _ hlt, if_pos hidx, multiply_tileOp, hmod]
  · intro b' hagree
    constructor
    · apply buildList_congr
      intro i _
      by_cases hi : i < a.rows * a.cols
      · have hpos : 0 < a.cols := by
          rcases Nat.eq_zero_or_pos a.cols with h0 | h0
          · omega
          · exact h0
        simp only [if_pos hi, add_tileOp]
        rw [hagree (i % a.cols) (Nat.mod_lt _ hpos)]
      · simp only [if_neg hi]
    · apply buildList_congr
      intro i _
      by_cases hi : i < a.rows * a.cols
      · have hpos : 0 < a.cols := by
          rcases Nat.eq_zero_or_pos a.cols with h0 | h0
          · omega
          · exact h0
        simp only [if_pos hi, multiply_tileOp]
        rw [hagree (i % a.cols) (Nat.mod_lt _ hpos)]
      · simp only [if_neg hi]

/-- Witness for the amended C2 theorem at a concrete 1x1 input. -/
theorem tile_ops_use_flat_column_index_witness :
    (add_tileCUDA ⟨[(5 : ℚ)], 1, 1⟩ ⟨[7], 1, 1⟩).dat.getD 0 0 = 5 + 7 := by
  have h := (tile_ops_use_flat_column_index ⟨[(5 : ℚ)], 1, 1⟩ ⟨[7], 1, 1⟩ 0 0
    (by decide) (by decide) (by decide)).1
  simpa using h

/-!
Matrix-multiply engine (src/gpu/cuda_utils.cu lines 10-135): three
strategies computing C = A * B-transpose for A (aRows x aCols) and
B (bRows x bCols) with aCols = bCols; B is read at row stride aCols. -/

/-- value computed by one thread of matMulCudaKernelNaive for output cell
(row, col): serial dot product over aCols entries, with the second operand
accessed in transposed manner at row stride aCols. -/
def naiveValue (A B : List ℚ) (aCols row col : ℕ) : ℚ :=
  ∑ k ∈ Finset.range aCols, A.getD (row * aCols + k) 0 * B.getD (col * aCols + k) 0

/-- result of launching a matrix-multiply kernel over a grid whose blocks
cover all cells (row, col) with row < aRows and col < bRows: the thread for
(row, col) writes value row col to C[row * bRows + col]; positions of the
output buffer that no thread writes keep their prior contents. For
bRows > 0 the unique thread writing index i is (i / bRows, i % bRows). -/
def matMulKernelRun (value : ℕ → ℕ → ℚ) (aRows bRows : ℕ) (prior : List ℚ) : List ℚ :=
  buildList prior.length (fun i =>
    if i / bRows < aRows ∧ i % bRows < bRows then value (i / bRows) (i % bRows)
    else prior.getD i 0)

/-- Embedding of the host entry point matMulCUDANaive (lines 24-47): it
copies the operands to the device, launches the naive kernel and copies the
aRows x bRows result back; bCols is used only for the transfer size. -/
def matMulCUDANaive (a b : Matrix) (prior : List ℚ) : Matrix :=
  ⟨matMulKernelRun (naiveValue a.dat b.dat a.cols) a.rows b.rows prior, a.rows, b.rows⟩

theorem matMulCUDANaive_dat (a b : Matrix) (prior : List ℚ) :
    (matMulCUDANaive a b prior).dat
      = matMulKernelRun (naiveValue a.dat b.dat a.cols) a.rows b.rows prior := rfl

/-- number of 32-wide tiles the optimized kernel iterates over, the C
expression (aCols - 1)/TILE_SIZE + 1: Nat subtraction gives the same value
1 at aCols = 0 as the C truncating division (-1)/32 = 0 does. -/
def numTiles (aCols : ℕ) : ℕ := (aCols - 1) / 32 + 1

/-- shared-memory tile element As[ty][k] as loaded for the thread row in
tile iteration m: the A entry at column m*32+k, zero-filled when that
column is out of range or the row is out of range. -/
def tileAElem (A : List ℚ) (aRows aCols row m k : ℕ) : ℚ :=
  if m * 32 + k < aCols ∧ row < aRows then A.getD (row * aCols + (m * 32 + k)) 0 else 0

/-- shared-memory tile element Bs[k][tx] as loaded for the thread column in
tile iteration m, zero-filled out of range. -/
def tileBElem (B : List ℚ) (aCols bRows col m k : ℕ) : ℚ :=
  if m * 32 + k < aCols ∧ col < bRows then B.getD (col * aCols + (m * 32 + k)) 0 else 0

/-- accumulator computed by one thread of matMulCudaKernelOptimized: over
every tile iteration, the dot product of the loaded 32-entry tile rows. -/
def tiledValue (A B : List ℚ) (aRows aCols bRows row col : ℕ) : ℚ :=
  ∑ m ∈ Finset.range (numTiles aCols), ∑ k ∈ Finset.range 32,
    tileAElem A aRows aCols row m k * tileBElem B aCols bRows col m k

/-- Embedding of the host entry point matMulCUDA (lines 89-94), which
launches the tiled kernel on device-resident operands. -/
def matMulCUDA (a b : Matrix) (prior : List ℚ) : Matrix :=
  ⟨matMulKernelRun (tiledValue a.dat b.dat a.rows a.cols b.rows) a.rows b.rows prior,
    a.rows, b.rows⟩

theorem matMulCUDA_dat (a b : Matrix) (prior : List ℚ) :
    (matMulCUDA a b prior).dat
      = matMulKernelRun (tiledValue a.dat b.dat a.rows a.cols b.rows) a.rows b.rows prior := rfl

/-- Error taxonomy entry for the matrix-multiply shape precondition. -/
inductive MatMulError
  | DimensionMismatch
deriving DecidableEq

/-- Embedding of the naive host entry point with its (absent) error channel
made explicit: the source performs no shape validation and has no error
path, so the embedding always returns ok. -/
def matMulCUDANaiveE (a b : Matrix) (prior : List ℚ) : Except MatMulError Matrix :=
  Except.ok (matMulCUDANaive a b prior)

/-- Embedding of the tiled host entry point with its (absent) error channel
made explicit; the source never reports an error. -/
def matMulCUDAE (a b : Matrix) (prior : List ℚ) : Except MatMulError Matrix :=
  Except.ok (matMulCUDA a b prior)

/-- Modelled from the spec: the body of cublasSgemm is external library
code, not part of this repository. Per the spec (library-backed strategy:
a single fused call, feeding B-transpose times A to a column-major GEMM,
yields C in row-major form directly) and the call-site comments at lines
117-127, the call computes C = A * B-transpose with beta = 0, fully
overwriting the aRows x bRows output; cell (i, j) is the dot product of
row i of A and row j of B read at stride aCols, valid under aCols = bCols. -/
def matMulCublasDat (a b : Matrix) : List ℚ :=
  buildList (a.rows * b.rows) (fun i =>
    ∑ k ∈ Finset.range a.cols,
      a.dat.getD (i / b.rows * a.cols + k) 0 * b.dat.getD (i % b.rows * a.cols + k) 0)

/-- Embedding of matMulCublas (lines 97-135) built on the modelled GEMM. -/
def matMulCublas (a b : Matrix) : Matrix :=
  ⟨matMulCublasDat a b, a.rows, b.rows⟩

theorem matMulCublas_dat (a b : Matrix) : (matMulCublas a b).dat = matMulCublasDat a b := rfl

/-- Stated from the specification contract for C5: the dot product of row i
of A and row j of B, each row read under the layout of its own matrix. -/
def dotRowSpec (a b : Matrix) (i j : ℕ) : ℚ :=
  ∑ k ∈ Finset.range a.cols, a.dat.getD (i * a.cols + k) 0 * b.dat.getD (j * b.cols + k) 0

theorem row_major_lt {i j R C : ℕ} (hi : i < R) (hj : j < C) : i * C + j < R * C := by
  calc i * C + j < i * C + C := by omega
  _ = (i + 1) * C := by ring
  _ ≤ R * C := Nat.mul_le_mul_right _ (by omega)

theorem row_major_div (i : ℕ) {j C : ℕ} (hj : j < C) : (i * C + j) / C = i := by
  have hpos : 0 < C := by omega
  rw [Nat.mul_comm, Nat.mul_add_div hpos, Nat.div_eq_of_lt hj, Nat.add_zero]

theorem row_major_mod (i : ℕ) {j C : ℕ} (hj : j < C) : (i * C + j) % C = j := by
  rw [Nat.add_comm, Nat.add_mul_mod_self_right, Nat.mod_eq_of_lt hj]

/-- Splitting a sum over range (M * c) into M blocks of c consecutive
terms, the regrouping performed by the tile loop. -/
theorem sum_range_mul (f : ℕ → ℚ) (M c : ℕ) :
    ∑ j ∈ Finset.range (M * c), f j
      = ∑ m ∈ Finset.range M, ∑ k ∈ Finset.range c, f (m * c + k) := by
  induction M with
  | zero => simp
  | succ n ih => rw [Nat.succ_mul, Finset.sum_range_add, ih, Finset.sum_range_succ]

theorem le_numTiles_mul (aCols : ℕ) : aCols ≤ numTiles aCols * 32 := by
  unfold numTiles
  omega

/-- Out-of-range tile elements are zero-filled, so for an in-range thread
the tiled accumulator equals the naive serial dot product. -/
theorem tiledValue_eq_naiveValue (A B : List ℚ) (aRows aCols bRows row col : ℕ)
    (hr : row < aRows) (hc : col < bRows) :
    tiledValue A B aRows aCols bRows row col = naiveValue A B aCols row col := by
  unfold tiledValue naiveValue
  have step1 : ∀ m k : ℕ,
      tileAElem A aRows aCols row m k * tileBElem B aCols bRows col m k
        = if m * 32 + k < aCols
          then A.getD (row * aCols + (m * 32 + k)) 0 * B.getD (col * aCols + (m * 32 + k)) 0
          else 0 := by
    intro m k
    unfold tileAElem tileBElem
    by_cases h : m * 32 + k < aCols
    · simp [h, hr, hc]
    · simp [h]
  calc ∑ m ∈ Finset.range (numTiles aCols), ∑ k ∈ Finset.range 32,
        tileAElem A aRows aCols row m k * tileBElem B aCols bRows col m k
      = ∑ m ∈ Finset.range (numTiles aCols), ∑ k ∈ Finset.range 32,
          (if m * 32 + k < aCols
           then A.getD (row * aCols + (m * 32 + k)) 0 * B.getD (col * aCols + (m * 32 + k)) 0
           else 0) :=
        Finset.sum_congr rfl (fun m _ => Finset.sum_congr rfl (fun k _ => step1 m k))
    _ = ∑ j ∈ Finset.range (numTiles aCols * 32),
          (if j < aCols
           then A.getD (row * aCols + j) 0 * B.getD (col * aCols + j) 0
           else 0) :=
        (sum_range_mul
          (fun j => if j < aCols
            then A.getD (row * aCols + j) 0 * B.getD (col * aCols + j) 0 else 0)
          (numTiles aCols) 32).symm
    _ = ∑ j ∈ Finset.range aCols,
          (if j < aCols
           then A.getD (row * aCols + j) 0 * B.getD (col * aCols + j) 0
           else 0) :=
        (Finset.sum_subset (Finset.range_subset.mpr (le_numTiles_mul aCols))
          (fun j _ hj => if_neg (fun hlt => hj (Finset.mem_range.mpr hlt)))).symm
    _ = ∑ j ∈ Finset.range aCols, A.getD (row * aCols + j) 0 * B.getD (col * aCols + j) 0 :=
        Finset.sum_congr rfl (fun j hj => if_pos (Finset.mem_range.mp hj))

/-- The cell (i, j) of a matrix-multiply kernel launch is the per-thread
value: the thread for (i, j) writes it, and no other thread touches it. -/
theorem matMulKernelRun_getD (value : ℕ → ℕ → ℚ) (aRows bRows : ℕ)
    (prior : List ℚ) (hlen : prior.length = aRows * bRows) {i j : ℕ}
    (hi : i < aRows) (hj : j < bRows) :
    (matMulKernelRun value aRows bRows prior).getD (i * bRows + j) 0 = value i j := by
  have hidx : i * bRows + j < aRows * bRows := row_major_lt hi hj
  rw [matMulKernelRun, getD_buildList _ _ _ (by omega),
    row_major_div i hj, row_major_mod i hj, if_pos ⟨hi, hj⟩]

/-- A matrix-multiply kernel launch overwrites every cell of a properly
sized output buffer: the result does not depend on the prior contents. -/
theorem matMulKernelRun_indep (value : ℕ → ℕ → ℚ) (aRows bRows : ℕ)
    (p1 p2 : List ℚ) (h1 : p1.length = aRows * bRows) (h2 : p2.length = aRows * bRows) :
    matMulKernelRun value aRows bRows p1 = matMulKernelRun value aRows bRows p2 := by
  unfold matMulKernelRun
  rw [h1, h2]
  apply buildList_congr
  intro i hi
  have hpos : 0 < bRows := Nat.pos_of_ne_zero (fun h => by
    rw [h, Nat.mul_zero] at hi
    exact Nat.not_lt_zero _ hi)
  have hd : i / bRows < aRows := (Nat.div_lt_iff_lt_mul hpos).mpr hi
  rw [if_pos ⟨hd, Nat.mod_lt _ hpos⟩, if_pos ⟨hd, Nat.mod_lt _ hpos⟩]

/-- C3: for every pair of operand matrices with matching inner dimension,
including dimensions that are not multiples of the 32-element tile size,
the naive, tiled and library-backed strategies agree within 1e-2 at every
output cell; in the exact rational model they agree exactly. -/
theorem matMul_strategies_agree (a b : Matrix) (prior prior2 : List ℚ) (i j : ℕ)
    (hdim : a.cols = b.cols) (hi : i < a.rows) (hj : j < b.rows)
    (hlen : prior.length = a.rows * b.rows) (hlen2 : prior2.length = a.rows * b.rows) :
    |(matMulCUDANaive a b prior).dat.getD (i * b.rows + j) 0
      - (matMulCUDA a b prior2).dat.getD (i * b.rows + j) 0| ≤ 1/100 ∧
    |(matMulCUDA a b prior2).dat.getD (i * b.rows + j) 0
      - (matMulCublas a b).dat.getD (i * b.rows + j) 0| ≤ 1/100 ∧
    |(matMulCUDANaive a b prior).dat.getD (i * b.rows + j) 0
      - (matMulCublas a b).dat.getD (i * b.rows + j) 0| ≤ 1/100 := by
  have hn : (matMulCUDANaive a b prior).dat.getD (i * b.rows + j) 0
      = naiveValue a.dat b.dat a.cols i j := by
    rw [matMulCUDANaive_dat, matMulKernelRun_getD _ _ _ _ hlen hi hj]
  have ht : (matMulCUDA a b prior2).dat.getD (i * b.rows + j) 0
      = naiveValue a.dat b.dat a.cols i j := by
    rw [matMulCUDA_dat, matMulKernelRun_getD _ _ _ _ hlen2 hi hj,
      tiledValue_eq_naiveValue _ _ _ _ _ _ _ hi hj]
  have hcu : (matMulCublas a b).dat.getD (i * b.rows + j) 0
      = naiveValue a.dat b.dat a.cols i j := by
    rw [matMulCublas_dat, matMulCublasDat,
      getD_buildList _ _ _ (row_major_lt hi hj), row_major_div i hj, row_major_mod i hj]
    rfl
  rw [hn, ht, hcu]
  norm_num

/-- Witness for C3 at concrete 2x3 and 1x3 operands (dimensions that are
not multiples of the tile size). -/
theorem matMul_strategies_agree_witness :
    |(matMulCUDANaive ⟨[1, 2, 3, 4, 5, 6], 2, 3⟩ ⟨[1, 0, 1], 1, 3⟩ [0, 0]).dat.getD
        (1 * 1 + 0) 0
      - (matMulCUDA ⟨[1, 2, 3, 4, 5, 6], 2, 3⟩ ⟨[1, 0, 1], 1, 3⟩ [5, 5]).dat.getD
        (1 * 1 + 0) 0| ≤ 1/100 :=
  (matMul_strategies_agree ⟨[1, 2, 3, 4, 5, 6], 2, 3⟩ ⟨[1, 0, 1], 1, 3⟩ [0, 0] [5, 5] 1 0
    rfl (by norm_num) (by norm_num) (by norm_num) (by norm_num)).1

/-- C4 fails on the code: the entry points perform no dimension check.
Called with aCols = 2 and bCols = 1 the naive entry point returns an
ordinary computed matrix, reading the second operand at stride aCols past
its logical extent, and never a reported DimensionMismatch; the tiled
entry point likewise never returns an error. -/
theorem matMul_mismatch_not_reported :
    (⟨[1, 2], 1, 2⟩ : Matrix).cols ≠ (⟨[3], 1, 1⟩ : Matrix).cols ∧
    matMulCUDANaiveE ⟨[1, 2], 1, 2⟩ ⟨[3], 1, 1⟩ [0] = Except.ok ⟨[3], 1, 1⟩ ∧
    (∀ e : MatMulError, matMulCUDAE ⟨[1, 2], 1, 2⟩ ⟨[3], 1, 1⟩ [0] ≠ Except.error e) := by
  refine ⟨by decide, ?_, ?_⟩
  · norm_num [matMulCUDANaiveE, matMulCUDANaive, matMulKernelRun, buildList,
      naiveValue, Finset.sum_range_succ, List.range_succ]
  · intro e
    simp [matMulCUDAE]

/-- C4 amended: the matrix-multiply entry points validate nothing. For
every pair of operands, matching dimensions or not, the naive and tiled
entry points return an ok result of shape aRows x bRows, never a reported
DimensionMismatch; when aRows or bRows is zero the result buffer is empty,
and when aCols is zero it is zero-filled, with no crash in either case. -/
theorem matMul_unchecked_spec (a b : Matrix) (prior : List ℚ)
    (hlen : prior.length = a.rows * b.rows) :
    matMulCUDANaiveE a b prior = Except.ok (matMulCUDANaive a b prior) ∧
    matMulCUDAE a b prior = Except.ok (matMulCUDA a b prior) ∧
    (matMulCUDANaive a b prior).rows = a.rows ∧
    (matMulCUDANaive a b prior).cols = b.rows ∧
    (a.rows = 0 ∨ b.rows = 0 →
      (matMulCUDANaive a b prior).dat = [] ∧ (matMulCUDA a b prior).dat = []) ∧
    (a.cols = 0 → ∀ j : ℕ, (matMulCUDANaive a b prior).dat.getD j 0 = 0) := by
  refine ⟨rfl, rfl, rfl, rfl, ?_, ?_⟩
  · intro h0
    have hl : prior.length = 0 := by
      rcases h0 with h | h <;> rw [hlen, h] <;> ring
    constructor
    · apply List.length_eq_zero.mp
      rw [matMulCUDANaive_dat, matMulKernelRun, length_buildList, hl]
    · apply List.length_eq_zero.mp
      rw [matMulCUDA_dat, matMulKernelRun, length_buildList, hl]
  · intro hac j
    rcases Nat.lt_or_ge j prior.length with hjl | hjl
    · have hpos : 0 < b.rows := by
        rcases Nat.eq_zero_or_pos b.rows with h | h
        · rw [hlen, h] at hjl
          omega
        · exact h
      rw [matMulCUDANaive_dat, matMulKernelRun, getD_buildList _ _ _ hjl,
        if_pos ⟨(Nat.div_lt_iff_lt_mul hpos).mpr (by omega), Nat.mod_lt _ hpos⟩]
      simp [naiveValue, hac]
    · rw [matMulCUDANaive_dat, matMulKernelRun, getD_buildList_of_le _ _ _ hjl]

/-- Witness for the amended C4 theorem: a call with zero aRows produces
empty result buffers. -/
theorem matMul_unchecked_spec_witness :
    (matMulCUDANaive ⟨[], 0, 2⟩ ⟨[1, 2], 1, 2⟩ []).dat = [] ∧
    (matMulCUDA ⟨[], 0, 2⟩ ⟨[1, 2], 1, 2⟩ []).dat = [] :=
  (matMul_unchecked_spec ⟨[], 0, 2⟩ ⟨[1, 2], 1, 2⟩ [] (by decide)).2.2.2.2.1 (Or.inl rfl)

/-- C5: with matching inner dimension the engine produces C of shape
aRows x bRows whose cell (i, j) equals the dot product of row i of A and
row j of B, for both the naive and the tiled kernels; the result is
independent of the prior contents of C, so every cell is overwritten; and
out-of-range tile elements are loaded as zero, so partial tiles never
corrupt the sum. -/
theorem matMul_computes_a_bt (a b : Matrix) (prior prior2 : List ℚ) (i j : ℕ)
    (hdim : a.cols = b.cols) (hi : i < a.rows) (hj : j < b.rows)
    (hlen : prior.length = a.rows * b.rows) (hlen2 : prior2.length = a.rows * b.rows) :
    (matMulCUDANaive a b prior).rows = a.rows ∧
    (matMulCUDANaive a b prior).cols = b.rows ∧
    (matMulCUDANaive a b prior).dat.getD (i * b.rows + j) 0 = dotRowSpec a b i j ∧
    (matMulCUDA a b prior).dat.getD (i * b.rows + j) 0 = dotRowSpec a b i j ∧
    (matMulCUDANaive a b prior).dat = (matMulCUDANaive a b prior2).dat ∧
    (matMulCUDA a b prior).dat = (matMulCUDA a b prior2).dat ∧
    (∀ m k : ℕ, a.cols ≤ m * 32 + k → tileAElem a.dat a.rows a.cols i m k = 0) := by
  have hspec : naiveValue a.dat b.dat a.cols i j = dotRowSpec a b i j := by
    unfold naiveValue dotRowSpec
    rw [hdim]
  refine ⟨rfl, rfl, ?_, ?_, ?_, ?_, ?_⟩
  · rw [matMulCUDANaive_dat, matMulKernelRun_getD _ _ _ _ hlen hi hj, hspec]
  · rw [matMulCUDA_dat, matMulKernelRun_getD _ _ _ _ hlen hi hj,
      tiledValue_eq_naiveValue _ _ _ _ _ _ _ hi hj, hspec]
  · rw [matMulCUDANaive_dat, matMulCUDANaive_dat,
      matMulKernelRun_indep _ _ _ _ _ hlen hlen2]
  · rw [matMulCUDA_dat, matMulCUDA_dat, matMulKernelRun_indep _ _ _ _ _ hlen hlen2]
  · intro m k hout
    rw [tileAElem, if_neg]
    intro hand
    omega

/-- Witness for C5 at a concrete 1x2 by 1x2 product. -/
theorem matMul_computes_a_bt_witness :
    (matMulCUDANaive ⟨[1, 2], 1, 2⟩ ⟨[3, 4], 1, 2⟩ [0]).dat.getD (0 * 1 + 0) 0
      = dotRowSpec ⟨[1, 2], 1, 2⟩ ⟨[3, 4], 1, 2⟩ 0 0 :=
  (matMul_computes_a_bt ⟨[1, 2], 1, 2⟩ ⟨[3, 4], 1, 2⟩ [0] [9] 0 0
    rfl (by norm_num) (by norm_num) (by norm_num) (by norm_num)).2.2.1

/-!
UNARY macro family (src/gpu/cuda_utils.cu lines 340-376): each kernel
writes out[i] = opr at every linear index i = row*aCols+col with
row < aRows and col < aCols, where out = a (in place); opr may mention the
scalar b = a[i], the constant k, the buffer a and the index i. All threads
read the pre-launch buffer contents. -/
def unaryKernelRun (op : List ℚ → ℕ → ℕ → ℚ → ℚ → ℚ)
    (a : List ℚ) (aRows aCols : ℕ) (k : ℚ) : List ℚ :=
  buildList a.length (fun i =>
    if i < aRows * aCols then op a aCols i (a.getD i 0) k else a.getD i 0)

/-- Element operation of broadcast: copy to every entry the first column of
its row, a[(i / aCols) * aCols]. -/
def broadcastOp : List ℚ → ℕ → ℕ → ℚ → ℚ → ℚ :=
  fun a aCols i _ _ => a.getD (i / aCols * aCols) 0

/-- Embedding of broadcastCUDA, the in-place host wrapper at value level. -/
def broadcastCUDA (m : Matrix) (k : ℚ) : Matrix :=
  ⟨unaryKernelRun broadcastOp m.dat m.rows m.cols k, m.rows, m.cols⟩

/-- C truncation toward zero of a rational, the (int)k cast of the tril
kernel. -/
def cTrunc (q : ℚ) : ℤ := q.num.tdiv (q.den : ℤ)

theorem cTrunc_natCast (n : ℕ) : cTrunc ((n : ℕ) : ℚ) = (n : ℤ) := by
  simp [cTrunc]

/-- Element operation of tril, parameterized by the exponential function e
of the C math library (external code, kept abstract): the mask condition
compares the float quotient i / k with the int remainder i % (int)k, both
built from the row-major linear index i; masked entries become 0 and every
other entry b becomes e(b / 8). -/
def trilOp (e : ℚ → ℚ) : List ℚ → ℕ → ℕ → ℚ → ℚ → ℚ :=
  fun _ _ i b k =>
    if (i : ℚ) / k < ((Int.tmod (i : ℤ) (cTrunc k) : ℤ) : ℚ) then 0 else e (b / 8)

/-- Embedding of trilCUDA. -/
def trilCUDA (e : ℚ → ℚ) (m : Matrix) (k : ℚ) : Matrix :=
  ⟨unaryKernelRun (trilOp e) m.dat m.rows m.cols k, m.rows, m.cols⟩

/-- C6 fails on the code: on a 3x3 matrix of entries 8 with block width
k = 3, the entry at (row, col) = (2, 1), linear index 7, satisfies the
claim predicate row/k < col mod k in both its real-division reading
(2/3 < 1) and its integer-division reading (2/3 = 0 < 1), so the claim
forces it to 0; but the kernel predicate 7/3 < 7 mod 3 is false, so the
code maps it to e(8/8) = 1, which is not 0. -/
theorem tril_counterexample :
    (trilCUDA (fun x => x) ⟨[8, 8, 8, 8, 8, 8, 8, 8, 8], 3, 3⟩ 3).dat.getD (2 * 3 + 1) 0 = 1 ∧
    ((2 : ℚ) / 3 < ((1 % 3 : ℤ) : ℚ)) ∧ ((2 / 3 : ℕ) < 1 % 3) ∧ ¬ (1 : ℚ) = 0 := by
  refine ⟨?_, by norm_num, by norm_num, by norm_num⟩
  rw [show (trilCUDA (fun x => x) ⟨[8, 8, 8, 8, 8, 8, 8, 8, 8], 3, 3⟩ 3).dat
      = unaryKernelRun (trilOp (fun x => x)) [8, 8, 8, 8, 8, 8, 8, 8, 8] 3 3 3 from rfl,
    unaryKernelRun, getD_buildList _ _ _ (by norm_num), if_pos (by norm_num : 2 * 3 + 1 < 3 * 3)]
  rw [show trilOp (fun x => x) [8, 8, 8, 8, 8, 8, 8, 8, 8] 3 (2 * 3 + 1)
        ([(8 : ℚ), 8, 8, 8, 8, 8, 8, 8, 8].getD (2 * 3 + 1) 0) 3
      = if ((7 : ℕ) : ℚ) / 3 < ((Int.tmod ((7 : ℕ) : ℤ) (cTrunc 3) : ℤ) : ℚ) then 0
        else ([(8 : ℚ), 8, 8, 8, 8, 8, 8, 8, 8].getD 7 0) / 8 from rfl]
  rw [show cTrunc 3 = 3 from by norm_num [cTrunc],
    show Int.tmod ((7 : ℕ) : ℤ) 3 = 1 from by decide]
  norm_num

/-- For c < n, the kernel mask comparison on linear index r*n+c is exactly
the strict upper-triangle condition r < c. -/
theorem mask_iff {r c n : ℕ} (hc : c < n) : r * n + c < c * n ↔ r < c := by
  constructor
  · intro h
    by_contra hge
    push_neg at hge
    have hle : c * n ≤ r * n := Nat.mul_le_mul_right n hge
    omega
  · intro h
    have h1 : (r + 1) * n ≤ c * n := Nat.mul_le_mul_right n h
    have h2 : r * n + n ≤ c * n := by
      rw [Nat.succ_mul] at h1
      omega
    omega

/-- C6 amended: the mask predicate of tril is i / k < i mod (int)k on the
row-major linear index i with float (here exact) division, not
row/k < col mod k. For a square n x n matrix with block width k = n this
zeros exactly the strictly upper-triangular entries, those with
row < col, and maps every other entry x to e(x / 8), for any e. -/
theorem tril_square_mask (e : ℚ → ℚ) (m : Matrix) (n r c : ℕ)
    (hrows : m.rows = n) (hcols : m.cols = n)
    (hlen : m.dat.length = n * n) (hr : r < n) (hc : c < n) :
    (trilCUDA e m ((n : ℕ) : ℚ)).dat.getD (r * n + c) 0
      = if r < c then 0 else e (m.dat.getD (r * n + c) 0 / 8) := by
  have hn : 0 < n := by omega
  have hidx : r * n + c < n * n := row_major_lt hr hc
  rw [show (trilCUDA e m ((n : ℕ) : ℚ)).dat
      = unaryKernelRun (trilOp e) m.dat m.rows m.cols ((n : ℕ) : ℚ) from rfl,
    unaryKernelRun, getD_buildList _ _ _ (by omega),
    if_pos (show r * n + c < m.rows * m.cols by rw [hrows, hcols]; exact hidx)]
  show (if ((r * n + c : ℕ) : ℚ) / ((n : ℕ) : ℚ)
        < ((Int.tmod ((r * n + c : ℕ) : ℤ) (cTrunc ((n : ℕ) : ℚ)) : ℤ) : ℚ) then 0
      else e (m.dat.getD (r * n + c) 0 / 8)) = _
  rw [cTrunc_natCast, show ((r * n + c : ℕ) : ℤ) = ((r * n + c : ℕ) : ℤ) from rfl]
  have htmod : Int.tmod ((r * n + c : ℕ) : ℤ) ((n : ℕ) : ℤ) = ((c : ℕ) : ℤ) := by
    rw [← Int.ofNat_tmod, row_major_mod r hc]
  rw [htmod, show (((c : ℕ) : ℤ) : ℚ) = ((c : ℕ) : ℚ) from by push_cast; ring]
  have hcond : ((r * n + c : ℕ) : ℚ) / ((n : ℕ) : ℚ) < ((c : ℕ) : ℚ) ↔ r < c := by
    rw [div_lt_iff₀ (by exact_mod_cast hn)]
    rw [show ((c : ℕ) : ℚ) * ((n : ℕ) : ℚ) = ((c * n : ℕ) : ℚ) by push_cast; ring]
    rw [Nat.cast_lt]
    exact mask_iff hc
  by_cases hrc : r < c
  · rw [if_pos (hcond.mpr hrc), if_pos hrc]
  · rw [if_neg (fun hlt => hrc (hcond.mp hlt)), if_neg hrc]

/-- Witness for the amended C6 theorem on a concrete 2x2 matrix with
k = n = 2: the below-diagonal entry (1, 0) is kept and mapped through e. -/
theorem tril_square_mask_witness :
    (trilCUDA (fun x => x) ⟨[8, 8, 8, 8], 2, 2⟩ ((2 : ℕ) : ℚ)).dat.getD (1 * 2 + 0) 0
      = if 1 < 0 then 0
        else (⟨[8, 8, 8, 8], 2, 2⟩ : Matrix).dat.getD (1 * 2 + 0) 0 / 8 :=
  tril_square_mask (fun x => x) ⟨[8, 8, 8, 8], 2, 2⟩ 2 1 0
    rfl rfl (by norm_num) (by norm_num) (by norm_num)

/-- The broadcast kernel writes to entry (r, c) the column-0 entry of row
r of the pre-launch buffer. -/
theorem broadcast_getD (m : Matrix) (k : ℚ) (hlen : m.dat.length = m.rows * m.cols)
    {r c : ℕ} (hr : r < m.rows) (hc : c < m.cols) :
    (broadcastCUDA m k).dat.getD (r * m.cols + c) 0 = m.dat.getD (r * m.cols) 0 := by
  have hidx : r * m.cols + c < m.rows * m.cols := row_major_lt hr hc
  rw [show (broadcastCUDA m k).dat = unaryKernelRun broadcastOp m.dat m.rows m.cols k from rfl,
    unaryKernelRun, getD_buildList _ _ _ (by omega), if_pos hidx]
  show m.dat.getD ((r * m.cols + c) / m.cols * m.cols) 0 = _
  rw [row_major_div r hc]

/-- Applying the broadcast kernel to an already broadcast buffer changes
nothing: the row-start entries it reads are fixed by the first pass. -/
theorem broadcast_idem_core (m : Matrix) (k k' : ℚ)
    (hlen : m.dat.length = m.rows * m.cols) :
    unaryKernelRun broadcastOp (unaryKernelRun broadcastOp m.dat m.rows m.cols k)
        m.rows m.cols k'
      = unaryKernelRun broadcastOp m.dat m.rows m.cols k := by
  have hBlen : (unaryKernelRun broadcastOp m.dat m.rows m.cols k).length
      = m.rows * m.cols := by
    rw [unaryKernelRun, length_buildList, hlen]
  conv_lhs => rw [unaryKernelRun, hBlen]
  conv_rhs => rw [unaryKernelRun, hlen]
  apply buildList_congr
  intro i hi
  rw [if_pos hi, if_pos hi]
  have hcols : 0 < m.cols := by
    rcases Nat.eq_zero_or_pos m.cols with h0 | h0
    · rw [h0, Nat.mul_zero] at hi
      exact absurd hi (Nat.not_lt_zero i)
    · exact h0
  show (unaryKernelRun broadcastOp m.dat m.rows m.cols k).getD (i / m.cols * m.cols) 0
      = m.dat.getD (i / m.cols * m.cols) 0
  have hle : i / m.cols * m.cols < m.rows * m.cols :=
    lt_of_le_of_lt (Nat.div_mul_le_self i m.cols) hi
  rw [unaryKernelRun, getD_buildList _ _ _ (by omega), if_pos hle]
  show m.dat.getD (i / m.cols * m.cols / m.cols * m.cols) 0 = _
  rw [Nat.mul_div_cancel _ hcols]

/-- C10: broadcast is idempotent: after one application every entry of a
row equals the original column-0 value of that row, the column-0 entries
themselves are unchanged, and a second application reproduces the same
buffer contents exactly. -/
theorem broadcast_idempotent (m : Matrix) (k k' : ℚ)
    (hlen : m.dat.length = m.rows * m.cols) :
    (broadcastCUDA (broadcastCUDA m k) k').dat = (broadcastCUDA m k).dat ∧
    (∀ r c : ℕ, r < m.rows → c < m.cols →
      (broadcastCUDA m k).dat.getD (r * m.cols + c) 0 = m.dat.getD (r * m.cols) 0) ∧
    (∀ r : ℕ, r < m.rows →
      (broadcastCUDA m k).dat.getD (r * m.cols) 0 = m.dat.getD (r * m.cols) 0) := by
  refine ⟨?_, ?_, ?_⟩
  · exact broadcast_idem_core m k k' hlen
  · intro r c hr hc
    exact broadcast_getD m k hlen hr hc
  · intro r hr
    rcases Nat.eq_zero_or_pos m.cols with h0 | h0
    · have hl0 : m.dat.length = 0 := by rw [hlen, h0, Nat.mul_zero]
      have hl1 : (broadcastCUDA m k).dat.length = 0 := by
        rw [show (broadcastCUDA m k).dat
            = unaryKernelRun broadcastOp m.dat m.rows m.cols k from rfl,
          unaryKernelRun, length_buildList, hl0]
      have e1 : (broadcastCUDA m k).dat.getD (r * m.cols) 0 = 0 :=
        List.getD_eq_default _ _ (by omega)
      have e2 : m.dat.getD (r * m.cols) 0 = 0 :=
        List.getD_eq_default _ _ (by omega)
      rw [e1, e2]
    · have h := broadcast_getD m k hlen hr h0
      simpa using h

/-- Witness for C10 on a concrete 2x2 matrix. -/
theorem broadcast_idempotent_witness :
    (broadcastCUDA (broadcastCUDA ⟨[1, 2, 3, 4], 2, 2⟩ 0) 0).dat
      = (broadcastCUDA ⟨[1, 2, 3, 4], 2, 2⟩ 0).dat :=
  (broadcast_idempotent ⟨[1, 2, 3, 4], 2, 2⟩ 0 0 (by norm_num)).1

/-!
In-place discipline of the macro-generated host wrappers (lines 351-360
and 387-393): to state that they return the very descriptor they were
given and allocate nothing, descriptors and device memory are embedded at
pointer level: the dat field is an address, and the heap maps every
address to buffer contents. -/

/-- Device memory: the buffer contents at every pointer value. -/
def Heap : Type := ℕ → List ℚ

/-- Embedding of the C descriptor struct Matrix at pointer level: dat is
the device pointer, an address into the heap. -/
structure MatrixD where
  dat : ℕ
  rows : ℕ
  cols : ℕ
deriving DecidableEq

/-- Host wrapper of the UNARY macro family: launch the kernel writing in
place through the data pointer of m, then return m itself; nothing is
allocated. -/
def unaryCUDAd (op : List ℚ → ℕ → ℕ → ℚ → ℚ → ℚ) (m : MatrixD) (k : ℚ)
    (h : Heap) : MatrixD × Heap :=
  (m, Function.update h m.dat (unaryKernelRun op (h m.dat) m.rows m.cols k))

/-- Host wrapper of the BINARY macro family: launch the kernel writing in
place through the data pointer of the first operand, then return that
operand; nothing is allocated. -/
def binaryCUDAd (op : List ℚ → ℕ → ℕ → ℚ → ℚ → ℚ) (ma mb : MatrixD)
    (h : Heap) : MatrixD × Heap :=
  (ma, Function.update h ma.dat
    (binaryKernelRun op (h ma.dat) (h mb.dat) ma.rows ma.cols))

/-- C9: every in-place elementwise operator, unary or binary, returns
exactly the Matrix descriptor given as its first operand — identical data
pointer, rows and cols — mutates only the buffer referenced by that
pointer, leaves every other heap cell untouched, and allocates nothing:
the written buffer keeps its length. -/
theorem inplace_same_descriptor (opU opB : List ℚ → ℕ → ℕ → ℚ → ℚ → ℚ)
    (m ma mb : MatrixD) (k : ℚ) (h : Heap) :
    (unaryCUDAd opU m k h).1 = m ∧
    (∀ p : ℕ, p ≠ m.dat → (unaryCUDAd opU m k h).2 p = h p) ∧
    ((unaryCUDAd opU m k h).2 m.dat).length = (h m.dat).length ∧
    (binaryCUDAd opB ma mb h).1 = ma ∧
    (∀ p : ℕ, p ≠ ma.dat → (binaryCUDAd opB ma mb h).2 p = h p) ∧
    ((binaryCUDAd opB ma mb h).2 ma.dat).length = (h ma.dat).length := by
  refine ⟨rfl, ?_, ?_, rfl, ?_, ?_⟩
  · intro p hp
    exact Function.update_noteq hp _ _
  · show (Function.update h m.dat (unaryKernelRun opU (h m.dat) m.rows m.cols k) m.dat).length
        = (h m.dat).length
    rw [Function.update_same, unaryKernelRun, length_buildList]
  · intro p hp
    exact Function.update_noteq hp _ _
  · show (Function.update h ma.dat
        (binaryKernelRun opB (h ma.dat) (h mb.dat) ma.rows ma.cols) ma.dat).length
        = (h ma.dat).length
    rw [Function.update_same, binaryKernelRun, length_buildList]

/-- Witness for C9 with a concrete operator, descriptor and heap. -/
theorem inplace_same_descriptor_witness :
    (unaryCUDAd (fun _ _ _ b k => b + k) ⟨0, 1, 1⟩ 1 (fun _ => [5])).1 = ⟨0, 1, 1⟩ ∧
    (unaryCUDAd (fun _ _ _ b k => b + k) ⟨0, 1, 1⟩ 1 (fun _ => [5])).2 7 = [5] :=
  ⟨(inplace_same_descriptor (fun _ _ _ b k => b + k) (fun _ _ _ b k => b + k)
      ⟨0, 1, 1⟩ ⟨0, 1, 1⟩ ⟨0, 1, 1⟩ 1 (fun _ => [5])).1,
    (inplace_same_descriptor (fun _ _ _ b k => b + k) (fun _ _ _ b k => b + k)
      ⟨0, 1, 1⟩ ⟨0, 1, 1⟩ ⟨0, 1, 1⟩ 1 (fun _ => [5])).2.1 7 (by norm_num)⟩

/-!
sumCudaKernel (src/gpu/cuda_utils.cu lines 138-160): each row is handled
by exactly one block through a grid-stride loop over rows; within a block,
thread t accumulates the columns congruent to t modulo the block width
256, the 256 partials are staged in shared memory, and thread 0 folds them
serially, writing the total to output[row * cols]; no other output
position is touched. -/

/-- row total computed by one block: the serial fold over the 256
per-thread partial sums, each the sum of the strided columns that thread
visits. -/
def sumRowTotal (input : List ℚ) (cols row : ℕ) : ℚ :=
  ∑ t ∈ Finset.range 256,
    ∑ c ∈ (Finset.range cols).filter (fun c => c % 256 = t),
      input.getD (row * cols + c) 0

/-- result buffer of the sum kernel launch: index j is written exactly
when some covered row stores its total there, that is when j = row * cols
for a row below rows; for cols = 0 every covered row writes index 0, whose
total is the empty sum. -/
def sumKernelRun (input : List ℚ) (rows cols : ℕ) (prior : List ℚ) : List ℚ :=
  buildList prior.length (fun j =>
    if 0 < cols ∧ j % cols = 0 ∧ j / cols < rows
    then sumRowTotal input cols (j / cols)
    else if cols = 0 ∧ j = 0 ∧ 0 < rows then sumRowTotal input cols 0
    else prior.getD j 0)

/-- Embedding of sumCUDA (lines 163-171). -/
def sumCUDA (a out : Matrix) : Matrix :=
  ⟨sumKernelRun a.dat a.rows a.cols out.dat, out.rows, out.cols⟩

/-- Regrouping the per-thread strided partial sums recovers the full row
sum: the residues modulo the block width partition the columns. -/
theorem sumRowTotal_eq (input : List ℚ) (cols row : ℕ) :
    sumRowTotal input cols row
      = ∑ c ∈ Finset.range cols, input.getD (row * cols + c) 0 := by
  unfold sumRowTotal
  exact Finset.sum_fiberwise_of_maps_to
    (fun c _ => Finset.mem_range.mpr (Nat.mod_lt _ (by norm_num))) _

/-- C7: the row-sum kernel writes to the first column of each row of the
output buffer the true sum of that row of the input, and every other
position of the output buffer keeps its prior contents. -/
theorem sumCUDA_spec (a out : Matrix)
    (hlen : out.dat.length = a.rows * a.cols) :
    (∀ r : ℕ, r < a.rows →
      (sumCUDA a out).dat.getD (r * a.cols) 0
        = ∑ c ∈ Finset.range a.cols, a.dat.getD (r * a.cols + c) 0) ∧
    (∀ j : ℕ, j < out.dat.length → (∀ r : ℕ, r < a.rows → j ≠ r * a.cols) →
      (sumCUDA a out).dat.getD j 0 = out.dat.getD j 0) := by
  constructor
  · intro r hr
    rcases Nat.eq_zero_or_pos a.cols with hc0 | hcpos
    · have hl1 : (sumCUDA a out).dat.length = 0 := by
        rw [show (sumCUDA a out).dat = sumKernelRun a.dat a.rows a.cols out.dat from rfl,
          sumKernelRun, length_buildList, hlen, hc0, Nat.mul_zero]
      rw [List.getD_eq_default _ _ (by omega), hc0]
      simp
    · have hidx : r * a.cols < a.rows * a.cols := by
        have := row_major_lt hr hcpos
        omega
      rw [show (sumCUDA a out).dat = sumKernelRun a.dat a.rows a.cols out.dat from rfl,
        sumKernelRun, getD_buildList _ _ _ (by omega),
        if_pos ⟨hcpos, Nat.mul_mod_left r a.cols,
          by rw [Nat.mul_div_cancel _ hcpos]; exact hr⟩,
        Nat.mul_div_cancel _ hcpos, sumRowTotal_eq]
  · intro j hj hnot
    have hg1 : ¬ (0 < a.cols ∧ j % a.cols = 0 ∧ j / a.cols < a.rows) := by
      rintro ⟨hcpos, hmod, hdiv⟩
      exact hnot (j / a.cols) hdiv
        ((Nat.div_mul_cancel (Nat.dvd_of_mod_eq_zero hmod)).symm)
    have hg2 : ¬ (a.cols = 0 ∧ j = 0 ∧ 0 < a.rows) := by
      rintro ⟨hc0, _, _⟩
      have hz : a.rows * a.cols = 0 := by rw [hc0, Nat.mul_zero]
      omega
    rw [show (sumCUDA a out).dat = sumKernelRun a.dat a.rows a.cols out.dat from rfl,
      sumKernelRun, getD_buildList _ _ _ hj, if_neg hg1, if_neg hg2]

/-- Witness for C7 on a concrete 2x2 input with a prior output buffer of
nines: row 0 gets its true sum at column 0. -/
theorem sumCUDA_spec_witness :
    (sumCUDA ⟨[1, 2, 3, 4], 2, 2⟩ ⟨[9, 9, 9, 9], 2, 2⟩).dat.getD (0 * 2) 0
      = ∑ c ∈ Finset.range 2, [(1 : ℚ), 2, 3, 4].getD (0 * 2 + c) 0 :=
  (sumCUDA_spec ⟨[1, 2, 3, 4], 2, 2⟩ ⟨[9, 9, 9, 9], 2, 2⟩ (by norm_num)).1 0 (by norm_num)

/-!
transposeKernel (src/gpu/cuda_utils.cu lines 174-208): 64x64 shared tiles
with one column of padding, 64x16 thread blocks, each thread handling 4
rows; the grid is CEIL(cols/64) x CEIL(rows/64) blocks. Phase 1: thread
(tx, ty) of block (bx, bi) writes, for each d < 4,
tile[4*ty+d][tx] = input[(bx*64+tx) + (bi*64+4*ty+d)*cols], guarded by
bx*64+tx < cols and bi*64+4*ty+d < rows. After the block barrier, phase 2
writes output[(bx*64+4*ty+d)*rows + (bi*64+tx)] = tile[tx][4*ty+d],
guarded by bi*64+tx < rows and bx*64+4*ty+d < cols. -/

/-- contents of the shared tile of block (bx, bi) after phase 1: entry
tile[p][q] was written by the thread with tx = q, ty = p / 4 at row offset
d = p % 4 when the global coordinates are in range; out-of-range entries
keep arbitrary uninitialized contents junk p q. -/
def transposeTile (input : List ℚ) (rows cols bx bi : ℕ) (junk : ℕ → ℕ → ℚ)
    (p q : ℕ) : ℚ :=
  if bx * 64 + q < cols ∧ bi * 64 + p < rows
  then input.getD ((bx * 64 + q) + (bi * 64 + p) * cols) 0
  else junk p q

/-- result buffer of the transpose kernel launch. A phase-2 write targets
output index c * rows + r with r = bi*64 + tx and c = bx*64 + 4*ty + d, so
for rows > 0 at most one thread instance writes a given index j, namely
tx = j % rows % 64, 4*ty + d = j / rows % 64, in block bi = j % rows / 64,
bx = j / rows / 64, and its guards reduce to j / rows < cols; the
embedding evaluates that instance, and every index no instance writes
keeps its prior contents. -/
def transposeKernelRun (input : List ℚ) (rows cols : ℕ) (junk : ℕ → ℕ → ℚ)
    (prior : List ℚ) : List ℚ :=
  buildList prior.length (fun j =>
    if 0 < rows ∧ j / rows < cols
    then transposeTile input rows cols (j / rows / 64) (j % rows / 64) junk
      (j % rows % 64) (j / rows % 64)
    else prior.getD j 0)

/-- Embedding of transposeCUDA (lines 234-240), which launches the kernel
on device-resident data with a caller-allocated output buffer. -/
def transposeCUDA (a out : Matrix) (junk : ℕ → ℕ → ℚ) : Matrix :=
  ⟨transposeKernelRun a.dat a.rows a.cols junk out.dat, out.rows, out.cols⟩

/-- The transpose kernel puts the input entry (r, c) at output position
c * rows + r, whatever the uninitialized shared-memory contents: the
phase-2 guards imply the phase-1 guards of the writing thread. -/
theorem transposeKernelRun_getD (input : List ℚ) (rows cols : ℕ)
    (junk : ℕ → ℕ → ℚ) (prior : List ℚ) (hlen : prior.length = rows * cols)
    {r c : ℕ} (hr : r < rows) (hc : c < cols) :
    (transposeKernelRun input rows cols junk prior).getD (c * rows + r) 0
      = input.getD (r * cols + c) 0 := by
  have hidx : c * rows + r < cols * rows := row_major_lt hc hr
  have hcomm : cols * rows = rows * cols := Nat.mul_comm _ _
  rw [transposeKernelRun, getD_buildList _ _ _ (by omega),
    row_major_div c hr, row_major_mod c hr, if_pos ⟨by omega, hc⟩, transposeTile]
  have hc64 : c / 64 * 64 + c % 64 = c := by omega
  have hr64 : r / 64 * 64 + r % 64 = r := by omega
  rw [hc64, hr64, if_pos ⟨hc, hr⟩, Nat.add_comm c (r * cols)]

/-- C8: the transpose engine produces the cols x rows matrix with
output[c][r] = M[r][c] for every valid (r, c), independent of the
uninitialized shared-memory contents, and composing transpose with itself
reproduces every entry of M exactly (hence also within 1e-2). -/
theorem transposeCUDA_spec (a out : Matrix) (junk : ℕ → ℕ → ℚ) (r c : ℕ)
    (hr : r < a.rows) (hc : c < a.cols)
    (hlen : out.dat.length = a.rows * a.cols)
    (houtr : out.rows = a.cols) (houtc : out.cols = a.rows) :
    (transposeCUDA a out junk).dat.getD (c * a.rows + r) 0
      = a.dat.getD (r * a.cols + c) 0 ∧
    (transposeCUDA a out junk).rows = a.cols ∧
    (transposeCUDA a out junk).cols = a.rows ∧
    (∀ (out2 : Matrix) (junk2 : ℕ → ℕ → ℚ),
      out2.dat.length = a.rows * a.cols →
      (transposeCUDA (transposeCUDA a out junk) out2 junk2).dat.getD (r * a.cols + c) 0
        = a.dat.getD (r * a.cols + c) 0) := by
  have hmain := transposeKernelRun_getD a.dat a.rows a.cols junk out.dat hlen hr hc
  refine ⟨hmain,
    by rw [show (transposeCUDA a out junk).rows = out.rows from rfl, houtr],
    by rw [show (transposeCUDA a out junk).cols = out.cols from rfl, houtc], ?_⟩
  intro out2 junk2 hlen2
  rw [show (transposeCUDA (transposeCUDA a out junk) out2 junk2).dat
      = transposeKernelRun (transposeKernelRun a.dat a.rows a.cols junk out.dat)
          out.rows out.cols junk2 out2.dat from rfl, houtr, houtc]
  have h2 := transposeKernelRun_getD
    (transposeKernelRun a.dat a.rows a.cols junk out.dat) a.cols a.rows junk2 out2.dat
    (by rw [hlen2, Nat.mul_comm]) hc hr
  rw [h2, hmain]

/-- Witness for C8 on a concrete 2x3 matrix with a 3x2 output buffer. -/
theorem transposeCUDA_spec_witness :
    (transposeCUDA ⟨[1, 2, 3, 4, 5, 6], 2, 3⟩ ⟨[0, 0, 0, 0, 0, 0], 3, 2⟩
        (fun _ _ => 0)).dat.getD (2 * 2 + 1) 0
      = [(1 : ℚ), 2, 3, 4, 5, 6].getD (1 * 3 + 2) 0 :=
  (transposeCUDA_spec ⟨[1, 2, 3, 4, 5, 6], 2, 3⟩ ⟨[0, 0, 0, 0, 0, 0], 3, 2⟩
    (fun _ _ => 0) 1 2 (by norm_num) (by norm_num) (by norm_num) rfl rfl).1

end CudaUtils
